import Mathlib

/-!
Shallow embedding of the Mini-Agent turn controller (`src/mini_agent/agent.py`).

The embedding models the message history, the cancellation cleanup
(`Agent._cleanup_incomplete_messages`), the summarization pass
(`Agent._summarize_messages` / `Agent._create_summary`), tool dispatch and the
step loop (`Agent.run`).  External collaborators are modelled as oracles in an
`Env` structure:

* `Env.llm`    — the gateway `self.llm.generate(messages, tools)` for the main
  step loop, indexed by call number; `Except.error` models a raised exception.
* `Env.aux`    — `self.llm.generate` as used by `_create_summary` (only the
  `content` of the response is consumed there); `Except.error` models a raised
  exception.
* `Env.cancel` — `self.cancel_event.is_set()` at the n-th cancellation
  checkpoint of the run.
* `Env.est`    — `self._estimate_tokens()`, whose value depends on the external
  tiktoken encoder and is therefore treated as oracle data.

Python exceptions caught by the tool dispatcher are modelled by `PyExc`,
carrying the formatted detail string and the traceback text the handler
interpolates into the failed `ToolResult`.
-/

namespace MiniAgent

/-- Message roles (`Message.role` in the schema): system, user, assistant, tool. -/
inductive Role
  | system
  | user
  | assistant
  | tool
  deriving DecidableEq, Repr

/-- Tool-call arguments (`function.arguments`): a key-value map supplied by the
model.  Values are opaque here and modelled as strings. -/
abbrev Args := List (String × String)

/-- `tool_call.function`: the requested tool name and its arguments. -/
structure ToolFunction where
  name : String
  arguments : Args
  deriving DecidableEq, Repr

/-- A model-emitted tool call: unique `id` plus the function request. -/
structure ToolCall where
  id : String
  function : ToolFunction
  deriving DecidableEq, Repr

/-- A conversation message as used by `agent.py`: role, content, optional
thinking, tool calls (assistant messages), and `tool_call_id`/`name` (tool
messages). -/
structure Message where
  role : Role
  content : String
  thinking : Option String := none
  tool_calls : List ToolCall := []
  tool_call_id : Option String := none
  name : Option String := none
  deriving DecidableEq, Repr

instance : Inhabited Message := ⟨⟨Role.system, "", none, [], none, none⟩⟩

/-- `ToolResult` from tools/base.py: success flag, content, optional error. -/
structure ToolResult where
  success : Bool
  content : String
  error : Option String := none
  deriving DecidableEq, Repr

/-- A raised Python exception as seen by the dispatcher handler:
`detail` is the formatted type-and-message string and `trace` the
traceback text. -/
structure PyExc where
  detail : String
  trace : String
  deriving DecidableEq, Repr

/-- A registered tool capability: `execute` returns a `ToolResult` or raises
(modelled by `Except.error`). -/
structure Capability where
  execute : Args → Except PyExc ToolResult

/-- `LLMResponse` from the gateway: content, optional thinking, tool calls,
and the reported usage (`usage.total_tokens`, absent when no usage object
is attached). -/
structure LLMResponse where
  content : String
  thinking : Option String := none
  tool_calls : List ToolCall := []
  usage : Option Nat := none
  finish_reason : Option String := none

/-- Mutable agent state: the message history and the token-accounting fields
of `Agent.__init__`, plus the tool registry and the step ceiling. -/
structure AgentState where
  messages : List Message
  tools : List (String × Capability)
  max_steps : Nat
  token_limit : Nat
  api_total_tokens : Nat
  skip_next_token_check : Bool

/-- Oracles for the external collaborators of one `run()` invocation. -/
structure Env where
  llm : Nat → Except String LLMResponse
  aux : Nat → Except String String
  cancel : Nat → Bool
  est : List Message → Nat

/-- `Agent.add_user_message`: append a user message to the history. -/
def addUserMessage (msgs : List Message) (content : String) : List Message :=
  msgs ++ [{ role := Role.user, content := content }]

/-- Index of the last assistant message: the backward scan of
`_cleanup_incomplete_messages` (lines 108-113). -/
def lastAssistantIdx : List Message → Option Nat
  | [] => none
  | m :: rest =>
    match lastAssistantIdx rest with
    | some i => some (i + 1)
    | none => if m.role = Role.assistant then some 0 else none

/-- `Agent._cleanup_incomplete_messages`: if an assistant message exists,
truncate the history to `messages[:last_assistant_idx]`; otherwise leave it
unchanged. -/
def cleanupIncompleteMessages (msgs : List Message) : List Message :=
  match lastAssistantIdx msgs with
  | none => msgs
  | some i => msgs.take i

/-- The per-message lines of the raw transcript built by `_create_summary`
(lines 296-309). -/
def summaryLine (m : Message) : String :=
  match m.role with
  | Role.assistant =>
    "Assistant: " ++ m.content ++ "\n" ++
      (if m.tool_calls.isEmpty then ""
       else "  → Called tools: " ++
         String.intercalate ", " (m.tool_calls.map (fun tc => tc.function.name)) ++ "\n")
  | Role.tool => "  ← Tool returned: " ++ m.content ++ "...\n"
  | _ => ""

/-- The raw concatenated transcript (`summary_content`) of one round
(lines 295-309). -/
def summaryContent (msgs : List Message) (round_num : Nat) : String :=
  "Round " ++ toString round_num ++ " execution process:\n\n" ++
    String.join (msgs.map summaryLine)

/-- `Agent._create_summary`: empty input yields `""` without a model call;
otherwise one auxiliary gateway call is made, whose content is returned on
success; on exception the raw transcript is returned.  Also returns the
advanced auxiliary-call counter. -/
def createSummary (env : Env) (auxIdx : Nat) (msgs : List Message)
    (round_num : Nat) : String × Nat :=
  if msgs.isEmpty then ("", auxIdx)
  else
    match env.aux auxIdx with
    | Except.ok content => (content, auxIdx + 1)
    | Except.error _ => (summaryContent msgs round_num, auxIdx + 1)

/-- `user_indices` of `_summarize_messages` (lines 222-224): indices `i > 0`
whose message has role user, from `enumerate(self.messages)`. -/
def userIndices (msgs : List Message) : List Nat :=
  ((msgs.enum.filter
      (fun p => decide (p.2.role = Role.user) && decide (0 < p.1))).map Prod.fst)

/-- The synthetic summary message appended for a round (lines 256-259). -/
def summaryMessage (text : String) : Message :=
  { role := Role.user, content := "[Assistant Execution Summary]\n\n" ++ text }

/-- One iteration of the rebuild loop of `_summarize_messages`
(lines 238-261): the current user message `messages[uidx]`, followed — when
the round `messages[uidx+1 : nextUser]` has execution messages and the
produced summary text is nonempty — by the synthetic summary message.
`i` is the 0-based position of the round, `auxIdx` the auxiliary-call
counter (returned advanced when a summary was attempted). -/
def roundSegment (env : Env) (msgs : List Message)
    (uidx nextUser i auxIdx : Nat) : List Message × Nat :=
  let executionMessages := (msgs.drop (uidx + 1)).take (nextUser - (uidx + 1))
  if executionMessages.isEmpty then ([msgs.getD uidx default], auxIdx)
  else
    let s := createSummary env auxIdx executionMessages (i + 1)
    if s.1 = "" then ([msgs.getD uidx default], s.2)
    else ([msgs.getD uidx default, summaryMessage s.1], s.2)

/-- The end bound of the current round: the next user index when one
remains, otherwise the end of the history (lines 243-247). -/
def nextUserBound (msgs : List Message) : List Nat → Nat
  | [] => msgs.length
  | j :: _ => j

/-- The rebuild loop of `_summarize_messages` (lines 238-261) over the user
indices, concatenating the per-round segments. -/
def roundsBuild (env : Env) (msgs : List Message) :
    List Nat → Nat → Nat → List Message × Nat
  | [], _, auxIdx => ([], auxIdx)
  | uidx :: rest, i, auxIdx =>
    let seg := roundSegment env msgs uidx (nextUserBound msgs rest) i auxIdx
    let tail := roundsBuild env msgs rest (i + 1) seg.2
    (seg.1 ++ tail.1, tail.2)

/-- The execution slice of the round at position `p` of the user-index list
`uidxs`: `messages[uidxs[p] + 1 : nextUser]` where `nextUser` is the
following user index, or the end of the history for the final round. -/
def execSlice (msgs : List Message) (uidxs : List Nat) (p : Nat) :
    List Message :=
  let uidx := uidxs.getD p 0
  let nextUser := if p + 1 < uidxs.length then uidxs.getD (p + 1) 0
    else msgs.length
  (msgs.drop (uidx + 1)).take (nextUser - (uidx + 1))

/-- The execution messages of the `p`-th round of a history (0-based),
as sliced by `_summarize_messages`. -/
def roundExecutionMessages (msgs : List Message) (p : Nat) : List Message :=
  execSlice msgs (userIndices msgs) p

/-- `Agent._summarize_messages` (lines 184-279): skip-flag early return,
trigger test on the local estimate and the reported API tokens, early return
when no user message exists, otherwise rebuild the history as
`[messages[0]] ++ rounds` and set the skip flag. -/
def summarizeMessages (env : Env) (st : AgentState) (auxIdx : Nat) :
    AgentState × Nat :=
  if st.skip_next_token_check then
    ({ st with skip_next_token_check := false }, auxIdx)
  else
    let estimated := env.est st.messages
    let shouldSummarize :=
      decide (st.token_limit < estimated) ||
        decide (st.token_limit < st.api_total_tokens)
    if !shouldSummarize then (st, auxIdx)
    else
      let uidxs := userIndices st.messages
      if uidxs.length < 1 then (st, auxIdx)
      else
        let built := roundsBuild env st.messages uidxs 0 auxIdx
        ({ st with
            messages := st.messages.headD default :: built.1,
            skip_next_token_check := true }, built.2)

/-- Exact-name lookup in the tool registry `self.tools`. -/
def lookupTool (tools : List (String × Capability)) (name : String) :
    Option Capability :=
  (tools.find? (fun p => p.1 == name)).map Prod.snd

/-- Tool dispatch (lines 493-513 of `Agent.run`): an unknown name yields the
synthetic unknown-tool failure without invoking anything; a raising capability
yields the tool-execution failure.  The boolean records whether a capability
`execute` was actually invoked. -/
def dispatchToolCall (tools : List (String × Capability)) (tc : ToolCall) :
    ToolResult × Bool :=
  match lookupTool tools tc.function.name with
  | none =>
    ({ success := false, content := "",
       error := some ("Unknown tool: " ++ tc.function.name) }, false)
  | some tool =>
    match tool.execute tc.function.arguments with
    | Except.ok r => (r, true)
    | Except.error e =>
      ({ success := false, content := "",
         error := some ("Tool execution failed: " ++ e.detail ++
           "\n\nTraceback:\n" ++ e.trace) }, true)

/-- The tool message appended for one tool call (lines 537-546): on failure the
content is the error prefixed with `Error: `. -/
def toolMessage (tc : ToolCall) (r : ToolResult) : Message :=
  { role := Role.tool,
    content := if r.success then r.content else "Error: " ++ r.error.getD "",
    tool_call_id := some tc.id,
    name := some tc.function.name }

/-- The assistant message appended from a gateway response (lines 432-439). -/
def assistantMessage (resp : LLMResponse) : Message :=
  { role := Role.assistant, content := resp.content, thinking := resp.thinking,
    tool_calls := resp.tool_calls }

/-- Result of the sequential tool-call loop: either cancellation was observed
after some tool execution (history already cleaned up), or all calls
completed.  Carries the history, the checkpoint counter and the names of the
capabilities actually invoked. -/
inductive ToolLoopResult
  | cancelledLoop (msgs : List Message) (checkIdx : Nat) (invoked : List String)
  | completed (msgs : List Message) (checkIdx : Nat) (invoked : List String)

/-- The per-response tool loop (lines 468-553): dispatch each tool call in
emission order, append its tool message, and check cancellation after each
execution, cleaning up on cancellation. -/
def execToolCalls (env : Env) (tools : List (String × Capability))
    (msgs : List Message) (checkIdx : Nat) (invoked : List String) :
    List ToolCall → ToolLoopResult
  | [] => ToolLoopResult.completed msgs checkIdx invoked
  | tc :: rest =>
    let d := dispatchToolCall tools tc
    let msgs1 := msgs ++ [toolMessage tc d.1]
    let invoked1 := invoked ++ (if d.2 then [tc.function.name] else [])
    if env.cancel checkIdx then
      ToolLoopResult.cancelledLoop (cleanupIncompleteMessages msgs1)
        (checkIdx + 1) invoked1
    else
      execToolCalls env tools msgs1 (checkIdx + 1) invoked1 rest

/-- The message history carried by a tool-loop result. -/
def toolLoopMsgs : ToolLoopResult → List Message
  | ToolLoopResult.cancelledLoop m _ _ => m
  | ToolLoopResult.completed m _ _ => m

/-- Which return site of `run()` produced the final string. -/
inductive Outcome
  | done (content : String)
  | cancelled
  | maxSteps
  | llmError (msg : String)
  deriving DecidableEq, Repr

/-- The final string returned by `run()` for each outcome. -/
def outcomeMessage (o : Outcome) (max_steps : Nat) : String :=
  match o with
  | Outcome.done c => c
  | Outcome.cancelled => "Task cancelled by user."
  | Outcome.maxSteps =>
    "Task couldn't be completed after " ++ toString max_steps ++ " steps."
  | Outcome.llmError e => e

/-- Result of a run: the outcome, the final state, the number of step-loop
gateway calls made, and the capabilities invoked. -/
structure RunResult where
  outcome : Outcome
  final : AgentState
  llmCalls : Nat
  invoked : List String

/-- The `while step < self.max_steps` loop of `Agent.run` (lines 369-566),
with `fuel` the number of remaining steps.  Checkpoints consume consecutive
indices of `Env.cancel`; step-loop gateway calls consume consecutive indices
of `Env.llm`. -/
def runLoop (env : Env) (st : AgentState)
    (checkIdx llmIdx auxIdx llmCalls : Nat) (invoked : List String)
    (fuel : Nat) : RunResult :=
  match fuel with
  | 0 => ⟨Outcome.maxSteps, st, llmCalls, invoked⟩
  | fuel + 1 =>
    if env.cancel checkIdx then
      ⟨Outcome.cancelled,
        { st with messages := cleanupIncompleteMessages st.messages },
        llmCalls, invoked⟩
    else
      let s := summarizeMessages env st auxIdx
      match env.llm llmIdx with
      | Except.error e => ⟨Outcome.llmError e, s.1, llmCalls + 1, invoked⟩
      | Except.ok resp =>
        let st2 :=
          match resp.usage with
          | some t => { s.1 with api_total_tokens := t }
          | none => s.1
        let st3 := { st2 with messages := st2.messages ++ [assistantMessage resp] }
        if resp.tool_calls.isEmpty then
          ⟨Outcome.done resp.content, st3, llmCalls + 1, invoked⟩
        else if env.cancel (checkIdx + 1) then
          ⟨Outcome.cancelled,
            { st3 with messages := cleanupIncompleteMessages st3.messages },
            llmCalls + 1, invoked⟩
        else
          match execToolCalls env st3.tools st3.messages (checkIdx + 2) invoked
              resp.tool_calls with
          | ToolLoopResult.cancelledLoop m _ inv =>
            ⟨Outcome.cancelled, { st3 with messages := m }, llmCalls + 1, inv⟩
          | ToolLoopResult.completed m c2 inv =>
            runLoop env { st3 with messages := m } c2 (llmIdx + 1) s.2
              (llmCalls + 1) inv fuel

/-- `Agent.run`: execute the step loop from fresh counters with
`self.max_steps` steps available. -/
def run (env : Env) (st : AgentState) : RunResult :=
  runLoop env st 0 0 0 0 [] st.max_steps

/-- The user-role messages of a history, in order. -/
def usersOf (msgs : List Message) : List Message :=
  msgs.filter (fun m => decide (m.role = Role.user))

/-! Concrete fixtures used by the closed witness and counterexample
theorems below. -/

/-- A system message with the given content. -/
def mkSystem (s : String) : Message := { role := Role.system, content := s }

/-- A user message with the given content. -/
def mkUser (s : String) : Message := { role := Role.user, content := s }

/-- An assistant message with the given content and no tool calls. -/
def mkAssistant (s : String) : Message :=
  { role := Role.assistant, content := s }

/-- A tool message with the given content. -/
def mkTool (s : String) : Message := { role := Role.tool, content := s }

/-- A four-message history ending in an assistant message and a tool result. -/
def exHistory : List Message :=
  [mkSystem "s", mkUser "u", mkAssistant "a", mkTool "t"]

/-- A capability whose execute always raises. -/
def capBoom : Capability :=
  ⟨fun _ => Except.error ⟨"ValueError: boom", "tb"⟩⟩

/-- A one-entry registry holding the raising capability. -/
def toolsBoom : List (String × Capability) := [("boom", capBoom)]

/-- A tool call addressed to the raising capability. -/
def tcBoom : ToolCall := ⟨"call_1", ⟨"boom", []⟩⟩

/-- A tool call whose name matches no registered capability. -/
def tcGhost : ToolCall := ⟨"call_2", ⟨"ghost", []⟩⟩

/-- A gateway response that always requests one tool call. -/
def respTool : LLMResponse := { content := "working", tool_calls := [tcGhost] }

/-- An environment whose cancellation flag is always set. -/
def envCancelled : Env :=
  ⟨fun _ => Except.error "unused", fun _ => Except.ok "",
    fun _ => true, fun _ => 0⟩

/-- A history holding one completed round followed by a fresh user request. -/
def stTwoRounds : AgentState :=
  ⟨[mkSystem "sys", mkUser "task 1", mkAssistant "done", mkUser "task 2"],
    [], 50, 100, 0, false⟩

/-- An environment whose auxiliary summarization call always raises. -/
def envAuxFails : Env :=
  ⟨fun _ => Except.error "unused", fun _ => Except.error "boom",
    fun _ => false, fun _ => 5⟩

/-- An environment whose auxiliary summarization call returns empty content. -/
def envAuxEmpty : Env :=
  ⟨fun _ => Except.error "unused", fun _ => Except.ok "",
    fun _ => false, fun _ => 5⟩

/-- An environment whose auxiliary summarization call returns `"S"`. -/
def envAuxOk : Env :=
  ⟨fun _ => Except.error "unused", fun _ => Except.ok "S",
    fun _ => false, fun _ => 5⟩

/-- A small history with one round of execution, whose last reported API
token count exceeds the limit while the local estimate does not. -/
def stSmall : AgentState :=
  ⟨[mkSystem "sys", mkUser "u", mkAssistant "done"], [], 50, 100, 101, false⟩

/-- An environment where the gateway always answers with a tool call and
nothing cancels. -/
def envSteps : Env :=
  ⟨fun _ => Except.ok respTool, fun _ => Except.ok "",
    fun _ => false, fun _ => 0⟩

/-- A fresh two-message history with a step ceiling of three. -/
def stSteps : AgentState := ⟨[mkSystem "sys", mkUser "go"], [], 3, 100, 0, false⟩

/-- A history with an assistant message before the first user message. -/
def stPre : AgentState :=
  ⟨[mkSystem "sys", mkAssistant "x", mkUser "q", mkAssistant "y"],
    [], 50, 100, 101, false⟩

end MiniAgent

namespace MiniAgent

/-! ### Cancellation cleanup -/

theorem lastAssistantIdx_eq_none (msgs : List Message)
    (h : lastAssistantIdx msgs = none) :
    ∀ m ∈ msgs, m.role ≠ Role.assistant := by
  induction msgs with
  | nil => intro m hm; cases hm
  | cons x rest ih =>
    intro m hm
    simp only [lastAssistantIdx] at h
    cases hrec : lastAssistantIdx rest with
    | some k => rw [hrec] at h; cases h
    | none =>
      rw [hrec] at h
      by_cases hx : x.role = Role.assistant
      · rw [if_pos hx] at h; cases h
      · cases hm with
        | head => exact hx
        | tail _ hm2 => exact ih hrec m hm2

theorem lastAssistantIdx_spec (msgs : List Message) (i : Nat)
    (h : lastAssistantIdx msgs = some i) :
    i < msgs.length ∧ (msgs.getD i default).role = Role.assistant ∧
      ∀ j, j < msgs.length → i < j →
        (msgs.getD j default).role ≠ Role.assistant := by
  induction msgs generalizing i with
  | nil => cases h
  | cons x rest ih =>
    simp only [lastAssistantIdx] at h
    cases hrec : lastAssistantIdx rest with
    | some k =>
      rw [hrec] at h
      have hik : k + 1 = i := by injection h
      subst hik
      obtain ⟨hk, hak, hkmax⟩ := ih k hrec
      refine ⟨by simpa using Nat.succ_lt_succ hk, by simpa using hak, ?_⟩
      intro j hj hkj
      cases j with
      | zero => exact absurd hkj (Nat.not_lt_zero _).elim
      | succ j' =>
        have hj' : j' < rest.length := by simpa using hj
        have hkj' : k < j' := Nat.lt_of_succ_lt_succ hkj
        simpa using hkmax j' hj' hkj'
    | none =>
      rw [hrec] at h
      by_cases hx : x.role = Role.assistant
      · rw [if_pos hx] at h
        have h0 : (0 : Nat) = i := by injection h
        subst h0
        refine ⟨Nat.succ_pos _, by simpa using hx, ?_⟩
        intro j hj h0j
        cases j with
        | zero => exact absurd h0j (Nat.lt_irrefl 0).elim
        | succ j' =>
          have hj' : j' < rest.length := by simpa using hj
          have hmem : rest.getD j' default ∈ rest := by
            rw [List.getD_eq_getElem rest default hj']
            exact List.getElem_mem hj'
          simpa using lastAssistantIdx_eq_none rest hrec _ hmem
      · rw [if_neg hx] at h; cases h

/-- C2: for a history with at least one assistant message, cancellation
cleanup truncates the history to the prefix ending immediately before the
most recent assistant message; for a history with no assistant message it is
left unchanged. -/
theorem cleanup_truncates_at_last_assistant (msgs : List Message) :
    ((∀ m ∈ msgs, m.role ≠ Role.assistant) →
      cleanupIncompleteMessages msgs = msgs)
    ∧ ∀ i, i < msgs.length → (msgs.getD i default).role = Role.assistant →
        (∀ j, j < msgs.length → i < j →
          (msgs.getD j default).role ≠ Role.assistant) →
        cleanupIncompleteMessages msgs = msgs.take i := by
  constructor
  · intro hall
    unfold cleanupIncompleteMessages
    cases hrec : lastAssistantIdx msgs with
    | none => rfl
    | some k =>
      obtain ⟨hk, hak, -⟩ := lastAssistantIdx_spec msgs k hrec
      have hmem : msgs.getD k default ∈ msgs := by
        rw [List.getD_eq_getElem msgs default hk]
        exact List.getElem_mem hk
      exact absurd hak (hall _ hmem)
  · intro i hi ha hmax
    cases hrec : lastAssistantIdx msgs with
    | none =>
      have hmem : msgs.getD i default ∈ msgs := by
        rw [List.getD_eq_getElem msgs default hi]
        exact List.getElem_mem hi
      exact absurd ha (lastAssistantIdx_eq_none msgs hrec _ hmem)
    | some k =>
      obtain ⟨hk, hak, hkmax⟩ := lastAssistantIdx_spec msgs k hrec
      have hik : i = k := by
        rcases Nat.lt_trichotomy i k with hlt | heq | hgt
        · exact absurd hak (hmax k hk hlt)
        · exact heq
        · exact absurd ha (hkmax i hi hgt)
      subst hik
      unfold cleanupIncompleteMessages
      rw [hrec]

/-- Witness for C2: the history `[system, user, assistant, tool]` is truncated
to its first two messages. -/
theorem cleanup_truncates_witness :
    cleanupIncompleteMessages exHistory = exHistory.take 2 :=
  (cleanup_truncates_at_last_assistant exHistory).2 2 (by decide) (by decide)
    (by decide)

end MiniAgent

namespace MiniAgent

/-! ### Summarization: trigger condition and rebuild structure -/

/-- C4 (amended): when both the local token estimate and the last reported
API total_tokens are at or below the configured limit, a summarization pass
leaves the message history exactly as it was. -/
theorem summarize_noop_below_both_limits (env : Env) (st : AgentState)
    (auxIdx : Nat) (h1 : env.est st.messages ≤ st.token_limit)
    (h2 : st.api_total_tokens ≤ st.token_limit) :
    (summarizeMessages env st auxIdx).1.messages = st.messages := by
  unfold summarizeMessages
  by_cases hskip : st.skip_next_token_check
  · simp [hskip]
  · simp [hskip, Nat.not_lt.mpr h1, Nat.not_lt.mpr h2]

/-- Witness for C4 (amended): on a small fresh history with small reported
usage the pass is a no-op. -/
theorem summarize_noop_witness :
    (summarizeMessages envSteps stSteps 0).1.messages = stSteps.messages :=
  summarize_noop_below_both_limits envSteps stSteps 0 (by decide) (by decide)

/-- Counterexample to C4 as stated: the local estimate is at or below the
limit, yet the pass rebuilds the history because the last reported API
total_tokens exceeds the limit. -/
theorem summarize_not_noop_on_api_tokens :
    envAuxOk.est stSmall.messages ≤ stSmall.token_limit
    ∧ (summarizeMessages envAuxOk stSmall 0).1.messages ≠ stSmall.messages := by
  constructor
  · decide
  · decide

theorem mem_userIndices (msgs : List Message) (i : Nat)
    (h : i ∈ userIndices msgs) :
    0 < i ∧ i < msgs.length ∧ (msgs.getD i default).role = Role.user := by
  unfold userIndices at h
  obtain ⟨p, hp, hfst⟩ := List.mem_map.mp h
  obtain ⟨hpe, hpq⟩ := List.mem_filter.mp hp
  rw [Bool.and_eq_true, decide_eq_true_eq, decide_eq_true_eq] at hpq
  obtain ⟨hrole, hpos⟩ := hpq
  have hget := List.mem_enum_iff_getElem?.mp hpe
  have hlen : p.1 < msgs.length := by
    cases hlt : msgs[p.1]? with
    | none => rw [hlt] at hget; cases hget
    | some v => exact (List.getElem?_eq_some.mp hlt).1
  subst hfst
  refine ⟨hpos, hlen, ?_⟩
  rw [List.getD_eq_getElem msgs default hlen]
  have : msgs[p.1] = p.2 := by
    have h2 := List.getElem?_eq_some.mp hget
    obtain ⟨hh, he⟩ := h2
    exact he
  rw [this]
  exact hrole

theorem roundSegment_shape (env : Env) (msgs : List Message)
    (uidx nextUser i auxIdx : Nat) :
    (roundSegment env msgs uidx nextUser i auxIdx).1 = [msgs.getD uidx default]
    ∨ ∃ t, t ≠ "" ∧ (roundSegment env msgs uidx nextUser i auxIdx).1 =
        [msgs.getD uidx default, summaryMessage t] := by
  simp only [roundSegment]
  split
  · exact Or.inl rfl
  · split
    · exact Or.inl rfl
    · exact Or.inr ⟨_, by assumption, rfl⟩

theorem roundsBuild_mem_role (env : Env) (msgs : List Message)
    (uidxs : List Nat) (i auxIdx : Nat)
    (hu : ∀ u ∈ uidxs, (msgs.getD u default).role = Role.user) :
    ∀ m ∈ (roundsBuild env msgs uidxs i auxIdx).1, m.role = Role.user := by
  induction uidxs generalizing i auxIdx with
  | nil => intro m hm; simp [roundsBuild] at hm
  | cons u rest ih =>
    intro m hm
    simp only [roundsBuild] at hm
    rw [List.mem_append] at hm
    cases hm with
    | inl hseg =>
      rcases roundSegment_shape env msgs u (nextUserBound msgs rest) i
          auxIdx with hs | ⟨t, ht, hs⟩
      · rw [hs] at hseg
        rw [List.mem_singleton] at hseg
        rw [hseg]
        exact hu u (List.mem_cons_self u rest)
      · rw [hs] at hseg
        rcases List.mem_cons.mp hseg with h1 | h2
        · rw [h1]; exact hu u (List.mem_cons_self u rest)
        · rw [List.mem_singleton] at h2
          rw [h2]
          rfl
    | inr htail =>
      exact ih (i + 1) _ (fun v hv => hu v (List.mem_cons_of_mem u hv)) m htail

theorem summarize_rebuild (env : Env) (st : AgentState) (auxIdx : Nat)
    (hskip : st.skip_next_token_check = false)
    (htrig : st.token_limit < env.est st.messages ∨
      st.token_limit < st.api_total_tokens)
    (huser : userIndices st.messages ≠ []) :
    (summarizeMessages env st auxIdx).1.messages =
      st.messages.headD default ::
        (roundsBuild env st.messages (userIndices st.messages) 0 auxIdx).1 := by
  have hss : (decide (st.token_limit < env.est st.messages) ||
      decide (st.token_limit < st.api_total_tokens)) = true := by
    rcases htrig with h | h <;> simp [h]
  have hlen : ¬((userIndices st.messages).length < 1) := by
    simpa [Nat.lt_one_iff, List.length_eq_zero] using huser
  simp [summarizeMessages, hskip, hss, hlen]

/-- C10: assistant or tool messages located after the system message but
before the first user message belong to no round and are absent from the
rebuilt history of a triggered summarization pass. -/
theorem pre_round_messages_discarded (env : Env) (st : AgentState)
    (auxIdx i : Nat) (hskip : st.skip_next_token_check = false)
    (htrig : st.token_limit < env.est st.messages ∨
      st.token_limit < st.api_total_tokens)
    (huser : userIndices st.messages ≠ [])
    (hlen : i < st.messages.length) (h0 : 0 < i)
    (hbefore : ∀ j ∈ userIndices st.messages, i < j)
    (hrole : (st.messages.getD i default).role = Role.assistant ∨
      (st.messages.getD i default).role = Role.tool)
    (hsys : (st.messages.headD default).role = Role.system) :
    st.messages.getD i default ∉
      (summarizeMessages env st auxIdx).1.messages := by
  rw [summarize_rebuild env st auxIdx hskip htrig huser]
  intro hmem
  rcases List.mem_cons.mp hmem with heq | hmem2
  · rcases hrole with h | h <;> rw [heq, hsys] at h <;> cases h
  · have hu : ∀ u ∈ userIndices st.messages,
        (st.messages.getD u default).role = Role.user :=
      fun u hu2 => (mem_userIndices st.messages u hu2).2.2
    have := roundsBuild_mem_role env st.messages (userIndices st.messages)
      0 auxIdx hu _ hmem2
    rcases hrole with h | h <;> rw [this] at h <;> cases h

/-- Witness for C10: the assistant message sitting before the first user
message of a concrete history is gone after the pass. -/
theorem pre_round_discarded_witness :
    stPre.messages.getD 1 default = mkAssistant "x"
    ∧ mkAssistant "x" ∉ (summarizeMessages envAuxOk stPre 0).1.messages := by
  have e : stPre.messages.getD 1 default = mkAssistant "x" := by decide
  have h := pre_round_messages_discarded envAuxOk stPre 0 1 (by decide)
    (Or.inr (by decide)) (by decide) (by decide) (by decide) (by decide)
    (Or.inl (by decide)) (by decide)
  exact ⟨e, e ▸ h⟩

end MiniAgent

namespace MiniAgent

/-! ### Summarization: preservation of user messages -/

theorem filter_enumFrom_userPred (l : List Message) (n : Nat) (hn : 0 < n) :
    List.filter (fun q => decide (q.2.role = Role.user) && decide (0 < q.1))
        (List.enumFrom n l)
      = List.filter (fun q => decide (q.2.role = Role.user))
        (List.enumFrom n l) := by
  induction l generalizing n with
  | nil => rfl
  | cons x xs ih =>
    rw [show List.enumFrom n (x :: xs) = (n, x) :: List.enumFrom (n + 1) xs
      from rfl]
    simp only [List.filter_cons]
    rw [ih (n + 1) (Nat.succ_pos n)]
    have hd : decide (0 < n) = true := decide_eq_true hn
    simp [hd]

theorem map_snd_filter_enumFrom (p : Message → Bool) (l : List Message)
    (n : Nat) :
    List.map Prod.snd
        (List.filter (fun q => p q.2) (List.enumFrom n l))
      = List.filter p l := by
  induction l generalizing n with
  | nil => rfl
  | cons x xs ih =>
    show List.map Prod.snd
        (List.filter _ ((n, x) :: List.enumFrom (n + 1) xs)) = _
    simp only [List.filter_cons]
    cases hx : p x <;> simp [hx, ih (n + 1)]

theorem enumFrom_getD (l : List Message) (n : Nat) :
    ∀ q ∈ List.enumFrom n l, n ≤ q.1 ∧ l.getD (q.1 - n) default = q.2 := by
  induction l generalizing n with
  | nil => intro q hq; cases hq
  | cons x xs ih =>
    intro q hq
    rw [show List.enumFrom n (x :: xs) = (n, x) :: List.enumFrom (n + 1) xs
      from rfl] at hq
    rcases List.mem_cons.mp hq with h | h
    · subst h
      exact ⟨Nat.le_refl n, by simp⟩
    · obtain ⟨h1, h2⟩ := ih (n + 1) q h
      refine ⟨Nat.le_of_succ_le h1, ?_⟩
      have he : q.1 - n = (q.1 - (n + 1)) + 1 := by omega
      rw [he, List.getD_cons_succ]
      exact h2

theorem userIndices_map_getD (m0 : Message) (tl : List Message) :
    ((userIndices (m0 :: tl)).map (fun i => (m0 :: tl).getD i default))
      = List.filter (fun m => decide (m.role = Role.user)) tl := by
  unfold userIndices
  rw [show (m0 :: tl).enum = (0, m0) :: List.enumFrom 1 tl from rfl]
  rw [List.filter_cons]
  have h0 : (decide (((0 : Nat), m0).2.role = Role.user) &&
      decide (0 < ((0 : Nat), m0).1)) = false := by simp
  rw [h0]
  simp only [Bool.false_eq_true, if_false]
  rw [filter_enumFrom_userPred tl 1 Nat.one_pos]
  rw [List.map_map]
  have hcong : ∀ q ∈ List.filter (fun q => decide (q.2.role = Role.user))
      (List.enumFrom 1 tl),
      ((fun i => (m0 :: tl).getD i default) ∘ Prod.fst) q = Prod.snd q := by
    intro q hq
    have hqe := (List.mem_filter.mp hq).1
    obtain ⟨h1, h2⟩ := enumFrom_getD tl 1 q hqe
    show (m0 :: tl).getD q.1 default = q.2
    have he : q.1 = (q.1 - 1) + 1 := by omega
    rw [he, List.getD_cons_succ]
    exact h2
  rw [List.map_congr_left hcong]
  exact map_snd_filter_enumFrom (fun m => decide (m.role = Role.user)) tl 1

theorem roundsBuild_users_sublist (env : Env) (msgs : List Message)
    (uidxs : List Nat) (i auxIdx : Nat)
    (hu : ∀ u ∈ uidxs, (msgs.getD u default).role = Role.user) :
    List.Sublist (uidxs.map (fun u => msgs.getD u default))
      (usersOf (roundsBuild env msgs uidxs i auxIdx).1) := by
  induction uidxs generalizing i auxIdx with
  | nil => simp [roundsBuild, usersOf]
  | cons u rest ih =>
    simp only [roundsBuild, List.map_cons]
    show List.Sublist _ (List.filter _ _)
    rw [List.filter_append]
    have hur : (msgs.getD u default).role = Role.user :=
      hu u (List.mem_cons_self u rest)
    have hrest : ∀ v ∈ rest, (msgs.getD v default).role = Role.user :=
      fun v hv => hu v (List.mem_cons_of_mem u hv)
    have hf1 : List.filter (fun m => decide (m.role = Role.user))
        [msgs.getD u default] = [msgs.getD u default] := by
      rw [List.filter_cons, decide_eq_true hur]
      simp
    rcases roundSegment_shape env msgs u (nextUserBound msgs rest) i auxIdx
        with hs | ⟨t, ht, hs⟩ <;> rw [hs]
    · rw [hf1]
      exact List.Sublist.cons₂ _ (ih _ _ hrest)
    · have hf2 : List.filter (fun m => decide (m.role = Role.user))
          [msgs.getD u default, summaryMessage t]
          = [msgs.getD u default, summaryMessage t] := by
        rw [List.filter_cons, decide_eq_true hur, List.filter_cons,
          decide_eq_true (show (summaryMessage t).role = Role.user from rfl)]
        simp
      rw [hf2]
      exact List.Sublist.cons₂ _ (List.Sublist.cons _ (ih _ _ hrest))

theorem roundsBuild_mem (env : Env) (msgs : List Message) (uidxs : List Nat)
    (i auxIdx : Nat) (hlen : ∀ u ∈ uidxs, u < msgs.length) :
    ∀ m ∈ (roundsBuild env msgs uidxs i auxIdx).1,
      m ∈ msgs ∨ ∃ t, m = summaryMessage t := by
  induction uidxs generalizing i auxIdx with
  | nil => intro m hm; simp [roundsBuild] at hm
  | cons u rest ih =>
    intro m hm
    simp only [roundsBuild] at hm
    rw [List.mem_append] at hm
    have hmem : msgs.getD u default ∈ msgs := by
      have hu := hlen u (List.mem_cons_self u rest)
      rw [List.getD_eq_getElem msgs default hu]
      exact List.getElem_mem hu
    cases hm with
    | inl hseg =>
      rcases roundSegment_shape env msgs u (nextUserBound msgs rest) i auxIdx
          with hs | ⟨t, ht, hs⟩ <;> rw [hs] at hseg
      · rw [List.mem_singleton] at hseg
        exact Or.inl (hseg ▸ hmem)
      · rcases List.mem_cons.mp hseg with h1 | h2
        · exact Or.inl (h1 ▸ hmem)
        · rw [List.mem_singleton] at h2
          exact Or.inr ⟨t, h2⟩
    | inr htail =>
      exact ih (i + 1) _ (fun v hv => hlen v (List.mem_cons_of_mem u hv)) m htail

theorem summarize_messages_cases (env : Env) (st : AgentState) (auxIdx : Nat) :
    (summarizeMessages env st auxIdx).1.messages = st.messages
    ∨ (userIndices st.messages ≠ [] ∧
        (summarizeMessages env st auxIdx).1.messages =
          st.messages.headD default ::
            (roundsBuild env st.messages (userIndices st.messages) 0
              auxIdx).1) := by
  by_cases hskip : st.skip_next_token_check
  · exact Or.inl (by simp [summarizeMessages, hskip])
  · cases hb : (decide (st.token_limit < env.est st.messages) ||
        decide (st.token_limit < st.api_total_tokens)) with
    | false => exact Or.inl (by simp [summarizeMessages, hskip, hb])
    | true =>
      by_cases huser : (userIndices st.messages).length < 1
      · exact Or.inl (by simp [summarizeMessages, hskip, hb, huser])
      · refine Or.inr ⟨?_, by simp [summarizeMessages, hskip, hb, huser]⟩
        intro hnil
        exact huser (by rw [hnil]; simp)

end MiniAgent

namespace MiniAgent

/-- C3 (amended): a summarization pass preserves the original user messages
in order and byte-content — they form a subsequence of the user-role messages
of the new history — and every user-role message of the new history is either
an original message or a synthetic round summary.  The count of user-role
messages can grow, because round summaries are appended with role user. -/
theorem users_preserved_as_sublist (env : Env) (st : AgentState)
    (auxIdx : Nat) :
    List.Sublist (usersOf st.messages)
        (usersOf (summarizeMessages env st auxIdx).1.messages)
    ∧ ∀ m ∈ usersOf (summarizeMessages env st auxIdx).1.messages,
        m ∈ st.messages ∨ ∃ t, m = summaryMessage t := by
  rcases summarize_messages_cases env st auxIdx with hsame | ⟨huser, hre⟩
  · rw [hsame]
    refine ⟨List.Sublist.refl _, fun m hm => Or.inl ?_⟩
    exact List.mem_of_mem_filter hm
  · rw [hre]
    have hu : ∀ u ∈ userIndices st.messages,
        (st.messages.getD u default).role = Role.user :=
      fun u hu2 => (mem_userIndices st.messages u hu2).2.2
    have hlen : ∀ u ∈ userIndices st.messages, u < st.messages.length :=
      fun u hu2 => (mem_userIndices st.messages u hu2).2.1
    cases hmsgs : st.messages with
    | nil =>
      exact absurd (by rw [hmsgs]; rfl) huser
    | cons m0 tl =>
      rw [hmsgs] at hu hlen
      have hsub := roundsBuild_users_sublist env (m0 :: tl)
        (userIndices (m0 :: tl)) 0 auxIdx hu
      rw [userIndices_map_getD m0 tl] at hsub
      constructor
      · show List.Sublist (List.filter _ (m0 :: tl)) (List.filter _ (_ :: _))
        rw [List.filter_cons, List.filter_cons]
        have hhead : (m0 :: tl).headD default = m0 := rfl
        rw [hhead]
        rw [← hmsgs] at hsub ⊢
        cases hm0 : decide (m0.role = Role.user)
        · simp only [Bool.false_eq_true, if_false]
          rw [hmsgs]
          rw [hmsgs] at hsub
          exact hsub
        · simp only [if_true]
          rw [hmsgs]
          rw [hmsgs] at hsub
          exact List.Sublist.cons₂ _ hsub
      · intro m hm
        have hm2 := List.mem_of_mem_filter hm
        rcases List.mem_cons.mp hm2 with h1 | h2
        · refine Or.inl ?_
          rw [h1]
          exact List.mem_cons_self m0 tl
        · have h4 := roundsBuild_mem env (m0 :: tl) (userIndices (m0 :: tl))
            0 auxIdx hlen m h2
          rcases h4 with h3 | h3
          · exact Or.inl h3
          · exact Or.inr h3

/-- Counterexample to C3 as stated: a triggered pass changes the count of
user-role messages from one to two, because the round summary is itself a
user-role message. -/
theorem summary_changes_user_message_count :
    (usersOf stSmall.messages).length = 1
    ∧ (usersOf (summarizeMessages envAuxOk stSmall 0).1.messages).length = 2 := by
  constructor
  · decide
  · decide

/-- Witness for C3 (amended) at a concrete history. -/
theorem users_preserved_witness :
    List.Sublist (usersOf stSmall.messages)
      (usersOf (summarizeMessages envAuxOk stSmall 0).1.messages) :=
  (users_preserved_as_sublist envAuxOk stSmall 0).1

/-! ### Summarization: fallback transcript on auxiliary failure -/

theorem summaryContent_ne_empty (msgs : List Message) (n : Nat) :
    summaryContent msgs n ≠ "" := by
  unfold summaryContent
  intro h
  have h2 := congrArg String.length h
  simp only [String.length_append] at h2
  have h6 : ("Round " : String).length = 6 := rfl
  rw [h6] at h2
  have h0 : ("" : String).length = 0 := rfl
  rw [h0] at h2
  omega

theorem execSlice_cons_zero (msgs : List Message) (u : Nat)
    (rest : List Nat) :
    execSlice msgs (u :: rest) 0 =
      (msgs.drop (u + 1)).take (nextUserBound msgs rest - (u + 1)) := by
  unfold execSlice nextUserBound
  cases rest <;> simp

theorem execSlice_cons_succ (msgs : List Message) (u : Nat)
    (rest : List Nat) (p : Nat) :
    execSlice msgs (u :: rest) (p + 1) = execSlice msgs rest p := by
  unfold execSlice
  simp only [List.getD_cons_succ, List.length_cons, Nat.add_lt_add_iff_right]

theorem roundsBuild_fallback_mem (env : Env) (msgs : List Message)
    (uidxs : List Nat)
    (haux : ∀ j, ∃ e, env.aux j = Except.error e) :
    ∀ p i auxIdx, p < uidxs.length → execSlice msgs uidxs p ≠ [] →
      summaryMessage (summaryContent (execSlice msgs uidxs p) (i + p + 1))
        ∈ (roundsBuild env msgs uidxs i auxIdx).1 := by
  induction uidxs with
  | nil => intro p i a hp; cases hp
  | cons u rest ih =>
    intro p i auxIdx hp hne
    simp only [roundsBuild]
    rw [List.mem_append]
    cases p with
    | zero =>
      left
      rw [execSlice_cons_zero] at hne ⊢
      obtain ⟨e, he⟩ := haux auxIdx
      have hempty :
          ((msgs.drop (u + 1)).take (nextUserBound msgs rest - (u + 1))).isEmpty
            = false := by
        cases hc : (msgs.drop (u + 1)).take (nextUserBound msgs rest - (u + 1))
        · exact absurd hc hne
        · rfl
      simp only [roundSegment, createSummary, hempty, he,
        Bool.false_eq_true, if_false, Nat.add_zero]
      rw [if_neg (summaryContent_ne_empty _ _)]
      simp
    | succ p' =>
      right
      rw [execSlice_cons_succ] at hne ⊢
      have hp' : p' < rest.length := Nat.lt_of_succ_lt_succ hp
      have h := ih p' (i + 1) (roundSegment env msgs u (nextUserBound msgs rest)
        i auxIdx).2 hp' hne
      rw [show i + 1 + p' + 1 = i + (p' + 1) + 1 from by omega] at h
      exact h

/-- C5 (amended): for every round with execution messages, when the auxiliary
summarization call raises, the raw concatenated transcript — which is always
nonempty — becomes the summary text, and the synthetic summary message built
from it is placed in the rebuilt history; a round can only be dropped when
the auxiliary call succeeds while returning empty content. -/
theorem aux_failure_uses_fallback_transcript (env : Env) (st : AgentState)
    (auxIdx p : Nat)
    (haux : ∀ j, ∃ e, env.aux j = Except.error e)
    (hskip : st.skip_next_token_check = false)
    (htrig : st.token_limit < env.est st.messages ∨
      st.token_limit < st.api_total_tokens)
    (huser : userIndices st.messages ≠ [])
    (hp : p < (userIndices st.messages).length)
    (hexec : roundExecutionMessages st.messages p ≠ []) :
    summaryContent (roundExecutionMessages st.messages p) (p + 1) ≠ ""
    ∧ summaryMessage
        (summaryContent (roundExecutionMessages st.messages p) (p + 1))
        ∈ (summarizeMessages env st auxIdx).1.messages := by
  refine ⟨summaryContent_ne_empty _ _, ?_⟩
  rw [summarize_rebuild env st auxIdx hskip htrig huser]
  simp only [roundExecutionMessages] at hexec ⊢
  have h := roundsBuild_fallback_mem env st.messages (userIndices st.messages)
    haux p 0 auxIdx hp hexec
  rw [show 0 + p + 1 = p + 1 from by omega] at h
  exact List.mem_cons_of_mem _ h

/-- Witness for C5 (amended): with a failing auxiliary call, the concrete
round transcript message lands in the rebuilt history. -/
theorem aux_failure_fallback_witness :
    summaryMessage (summaryContent [mkAssistant "done"] 1)
      ∈ (summarizeMessages envAuxFails stSmall 0).1.messages := by
  have h := aux_failure_uses_fallback_transcript envAuxFails stSmall 0 0
    (fun j => ⟨"boom", rfl⟩) (by decide) (Or.inr (by decide)) (by decide)
    (by decide) (by decide)
  have e : roundExecutionMessages stSmall.messages 0 = [mkAssistant "done"] := by
    decide
  rw [e] at h
  exact h.2

/-- Counterexample to C5 as stated: the sole round has execution messages,
yet after a pass whose auxiliary call succeeds with empty content the rebuilt
history is exactly `[system, user]` — no summary message for the round. -/
theorem empty_summary_drops_round :
    roundExecutionMessages stSmall.messages 0 ≠ []
    ∧ (summarizeMessages envAuxEmpty stSmall 0).1.messages =
        [mkSystem "sys", mkUser "u"] := by
  constructor
  · decide
  · decide

end MiniAgent

namespace MiniAgent

/-! ### The step loop: state-preservation helpers -/

theorem summarizeMessages_tools (env : Env) (st : AgentState) (auxIdx : Nat) :
    (summarizeMessages env st auxIdx).1.tools = st.tools := by
  by_cases hskip : st.skip_next_token_check
  · simp [summarizeMessages, hskip]
  · cases hb : (decide (st.token_limit < env.est st.messages) ||
        decide (st.token_limit < st.api_total_tokens)) with
    | false => simp [summarizeMessages, hskip, hb]
    | true =>
      by_cases huser : (userIndices st.messages).length < 1 <;>
        simp [summarizeMessages, hskip, hb, huser]

theorem cleanup_head_preserved (msgs : List Message) (m0 : Message)
    (hhead : msgs.head? = some m0) (hrole : m0.role = Role.system) :
    (cleanupIncompleteMessages msgs).head? = some m0 := by
  cases msgs with
  | nil => cases hhead
  | cons x tl =>
    have hx : x = m0 := by
      have := hhead
      simp only [List.head?_cons] at this
      exact Option.some.inj this
    subst hx
    unfold cleanupIncompleteMessages
    cases hrec : lastAssistantIdx (x :: tl) with
    | none => exact hhead
    | some k =>
      obtain ⟨hk, hak, -⟩ := lastAssistantIdx_spec _ k hrec
      cases k with
      | zero =>
        exfalso
        rw [show ((x :: tl).getD 0 default) = x from rfl] at hak
        rw [hrole] at hak
        cases hak
      | succ k' =>
        show (List.take (k' + 1) (x :: tl)).head? = some x
        rw [List.take_succ_cons]
        rfl

theorem head?_append_cons (msgs : List Message) (m0 : Message)
    (l : List Message) (hhead : msgs.head? = some m0) :
    (msgs ++ l).head? = some m0 := by
  cases msgs with
  | nil => cases hhead
  | cons x tl => exact hhead

theorem summarize_head_preserved (env : Env) (st : AgentState) (auxIdx : Nat)
    (m0 : Message) (hhead : st.messages.head? = some m0) :
    (summarizeMessages env st auxIdx).1.messages.head? = some m0 := by
  rcases summarize_messages_cases env st auxIdx with hsame | ⟨huser, hre⟩
  · rw [hsame]; exact hhead
  · rw [hre]
    cases hm : st.messages with
    | nil => rw [hm] at hhead; cases hhead
    | cons x tl =>
      rw [hm] at hhead
      show some ((x :: tl).headD default) = some m0
      exact hhead

theorem execToolCalls_completed_of_no_cancel (env : Env)
    (tools : List (String × Capability)) (tcs : List ToolCall)
    (h : ∀ i, env.cancel i = false) :
    ∀ msgs checkIdx invoked, ∃ m c inv,
      execToolCalls env tools msgs checkIdx invoked tcs =
        ToolLoopResult.completed m c inv := by
  induction tcs with
  | nil => intro msgs c inv; exact ⟨msgs, c, inv, rfl⟩
  | cons tc rest ih =>
    intro msgs c inv
    simp only [execToolCalls, h c, Bool.false_eq_true, if_false]
    exact ih _ _ _

theorem execToolCalls_head_preserved (env : Env)
    (tools : List (String × Capability)) (tcs : List ToolCall) (m0 : Message)
    (hrole : m0.role = Role.system) :
    ∀ msgs checkIdx invoked, msgs.head? = some m0 →
      (toolLoopMsgs (execToolCalls env tools msgs checkIdx invoked tcs)).head?
        = some m0 := by
  induction tcs with
  | nil => intro msgs c inv hhead; exact hhead
  | cons tc rest ih =>
    intro msgs c inv hhead
    have hh1 : (msgs ++ [toolMessage tc (dispatchToolCall tools tc).1]).head?
        = some m0 := head?_append_cons _ _ _ hhead
    cases hc : env.cancel c with
    | true =>
      simp only [execToolCalls, hc, if_true]
      exact cleanup_head_preserved _ _ hh1 hrole
    | false =>
      simp only [execToolCalls, hc, Bool.false_eq_true, if_false]
      exact ih _ _ _ hh1

end MiniAgent

namespace MiniAgent

theorem runLoop_succ (env : Env) (st : AgentState)
    (checkIdx llmIdx auxIdx llmCalls : Nat) (invoked : List String)
    (fuel : Nat) :
    runLoop env st checkIdx llmIdx auxIdx llmCalls invoked (fuel + 1) =
      if env.cancel checkIdx then
        ⟨Outcome.cancelled,
          { st with messages := cleanupIncompleteMessages st.messages },
          llmCalls, invoked⟩
      else
        let s := summarizeMessages env st auxIdx
        match env.llm llmIdx with
        | Except.error e => ⟨Outcome.llmError e, s.1, llmCalls + 1, invoked⟩
        | Except.ok resp =>
          let st2 :=
            match resp.usage with
            | some t => { s.1 with api_total_tokens := t }
            | none => s.1
          let st3 :=
            { st2 with messages := st2.messages ++ [assistantMessage resp] }
          if resp.tool_calls.isEmpty then
            ⟨Outcome.done resp.content, st3, llmCalls + 1, invoked⟩
          else if env.cancel (checkIdx + 1) then
            ⟨Outcome.cancelled,
              { st3 with messages := cleanupIncompleteMessages st3.messages },
              llmCalls + 1, invoked⟩
          else
            match execToolCalls env st3.tools st3.messages (checkIdx + 2)
                invoked resp.tool_calls with
            | ToolLoopResult.cancelledLoop m _ inv =>
              ⟨Outcome.cancelled, { st3 with messages := m }, llmCalls + 1, inv⟩
            | ToolLoopResult.completed m c2 inv =>
              runLoop env { st3 with messages := m } c2 (llmIdx + 1) s.2
                (llmCalls + 1) inv fuel := rfl

theorem runLoop_tools (env : Env) (fuel : Nat) :
    ∀ st checkIdx llmIdx auxIdx llmCalls invoked,
      (runLoop env st checkIdx llmIdx auxIdx llmCalls invoked fuel).final.tools
        = st.tools := by
  induction fuel with
  | zero => intro st c l a lc inv; rfl
  | succ fuel ih =>
    intro st c l a lc inv
    rw [runLoop_succ]
    cases hc : env.cancel c with
    | true => rfl
    | false =>
      dsimp only
      cases hl : env.llm l with
      | error e => exact summarizeMessages_tools env st a
      | ok resp =>
        dsimp only
        have hst2tools : ∀ st2 : AgentState, st2.tools = st.tools →
            ({ st2 with messages := st2.messages ++ [assistantMessage resp] }
              : AgentState).tools = st.tools := fun st2 h => h
        cases hu : resp.usage with
        | some t =>
          dsimp only
          cases hemp : resp.tool_calls.isEmpty with
          | true => exact summarizeMessages_tools env st a
          | false =>
            cases hc2 : env.cancel (c + 1) with
            | true => exact summarizeMessages_tools env st a
            | false =>
              split
              · rfl
              · split
                · exact summarizeMessages_tools env st a
                · rw [ih]
                  exact summarizeMessages_tools env st a
        | none =>
          dsimp only
          cases hemp : resp.tool_calls.isEmpty with
          | true => exact summarizeMessages_tools env st a
          | false =>
            cases hc2 : env.cancel (c + 1) with
            | true => exact summarizeMessages_tools env st a
            | false =>
              split
              · rfl
              · split
                · exact summarizeMessages_tools env st a
                · rw [ih]
                  exact summarizeMessages_tools env st a

end MiniAgent

namespace MiniAgent

theorem execToolCalls_not_cancelled (env : Env)
    (h : ∀ i, env.cancel i = false) (tools : List (String × Capability))
    (tcs : List ToolCall) :
    ∀ msgs checkIdx invoked m c inv,
      execToolCalls env tools msgs checkIdx invoked tcs ≠
        ToolLoopResult.cancelledLoop m c inv := by
  induction tcs with
  | nil =>
    intro msgs c0 inv0 m c inv he
    exact ToolLoopResult.noConfusion he
  | cons tc rest ih =>
    intro msgs c0 inv0 m c inv
    simp only [execToolCalls, h c0, Bool.false_eq_true, if_false]
    exact ih _ _ _ m c inv

theorem runLoop_no_abnormal (env : Env)
    (hcancel : ∀ i, env.cancel i = false)
    (hllm : ∀ i, ∃ resp, env.llm i = Except.ok resp) (fuel : Nat) :
    ∀ st checkIdx llmIdx auxIdx llmCalls invoked,
      (runLoop env st checkIdx llmIdx auxIdx llmCalls invoked fuel).outcome
          ≠ Outcome.cancelled
      ∧ ∀ e,
        (runLoop env st checkIdx llmIdx auxIdx llmCalls invoked fuel).outcome
          ≠ Outcome.llmError e := by
  induction fuel with
  | zero =>
    intro st c l a lc inv
    exact ⟨fun h => Outcome.noConfusion h, fun e h => Outcome.noConfusion h⟩
  | succ fuel ih =>
    intro st c l a lc inv
    rw [runLoop_succ, hcancel c]
    obtain ⟨resp, hresp⟩ := hllm l
    rw [hresp]
    simp only [Bool.false_eq_true, if_false]
    cases hu : resp.usage with
    | some t =>
      dsimp only
      cases hemp : resp.tool_calls.isEmpty with
      | true => exact ⟨fun h => Outcome.noConfusion h, fun e h => Outcome.noConfusion h⟩
      | false =>
        rw [hcancel (c + 1)]
        simp only [Bool.false_eq_true, if_false]
        split
        · rename_i m c2 inv2 heq
          exact absurd heq (execToolCalls_not_cancelled env hcancel _ _ _ _ _ _ _ _)
        · exact ih _ _ _ _ _ _
    | none =>
      dsimp only
      cases hemp : resp.tool_calls.isEmpty with
      | true => exact ⟨fun h => Outcome.noConfusion h, fun e h => Outcome.noConfusion h⟩
      | false =>
        rw [hcancel (c + 1)]
        simp only [Bool.false_eq_true, if_false]
        split
        · rename_i m c2 inv2 heq
          exact absurd heq (execToolCalls_not_cancelled env hcancel _ _ _ _ _ _ _ _)
        · exact ih _ _ _ _ _ _

theorem runLoop_max_steps (env : Env)
    (hcancel : ∀ i, env.cancel i = false)
    (hllm : ∀ i, ∃ resp, env.llm i = Except.ok resp ∧ resp.tool_calls ≠ [])
    (fuel : Nat) :
    ∀ st checkIdx llmIdx auxIdx llmCalls invoked,
      (runLoop env st checkIdx llmIdx auxIdx llmCalls invoked fuel).outcome
          = Outcome.maxSteps
      ∧ (runLoop env st checkIdx llmIdx auxIdx llmCalls invoked fuel).llmCalls
          = llmCalls + fuel := by
  induction fuel with
  | zero => intro st c l a lc inv; exact ⟨rfl, rfl⟩
  | succ fuel ih =>
    intro st c l a lc inv
    rw [runLoop_succ, hcancel c]
    obtain ⟨resp, hresp, hne⟩ := hllm l
    rw [hresp]
    simp only [Bool.false_eq_true, if_false]
    have hempty : resp.tool_calls.isEmpty = false := by
      cases hx : resp.tool_calls
      · exact absurd hx hne
      · rfl
    rw [hempty, hcancel (c + 1)]
    simp only [Bool.false_eq_true, if_false]
    cases hu : resp.usage with
    | some t =>
      dsimp only
      split
      · rename_i m c2 inv2 heq
        exact absurd heq (execToolCalls_not_cancelled env hcancel _ _ _ _ _ _ _ _)
      · refine ⟨(ih _ _ _ _ _ _).1, ?_⟩
        rw [(ih _ _ _ _ _ _).2]
        omega
    | none =>
      dsimp only
      split
      · rename_i m c2 inv2 heq
        exact absurd heq (execToolCalls_not_cancelled env hcancel _ _ _ _ _ _ _ _)
      · refine ⟨(ih _ _ _ _ _ _).1, ?_⟩
        rw [(ih _ _ _ _ _ _).2]
        omega

end MiniAgent

namespace MiniAgent

theorem runLoop_head_preserved (env : Env) (m0 : Message)
    (hrole : m0.role = Role.system) (fuel : Nat) :
    ∀ st checkIdx llmIdx auxIdx llmCalls invoked,
      st.messages.head? = some m0 →
      ((runLoop env st checkIdx llmIdx auxIdx llmCalls invoked
        fuel).final).messages.head? = some m0 := by
  induction fuel with
  | zero => intro st c l a lc inv hhead; exact hhead
  | succ fuel ih =>
    intro st c l a lc inv hhead
    rw [runLoop_succ]
    cases hc : env.cancel c with
    | true => exact cleanup_head_preserved _ _ hhead hrole
    | false =>
      simp only [Bool.false_eq_true, if_false]
      cases hl : env.llm l with
      | error e => exact summarize_head_preserved env st a m0 hhead
      | ok resp =>
        dsimp only
        have hh1 : (summarizeMessages env st a).1.messages.head? = some m0 :=
          summarize_head_preserved env st a m0 hhead
        have hh3 : ((summarizeMessages env st a).1.messages ++
            [assistantMessage resp]).head? = some m0 :=
          head?_append_cons _ _ _ hh1
        cases hu : resp.usage with
        | some t =>
          dsimp only
          cases hemp : resp.tool_calls.isEmpty with
          | true => exact hh3
          | false =>
            simp only [Bool.false_eq_true, if_false]
            cases hc2 : env.cancel (c + 1) with
            | true => exact cleanup_head_preserved _ _ hh3 hrole
            | false =>
              simp only [Bool.false_eq_true, if_false]
              split
              · rename_i m c2 inv2 heq
                have hml := execToolCalls_head_preserved env
                  (summarizeMessages env st a).1.tools resp.tool_calls m0 hrole
                  ((summarizeMessages env st a).1.messages ++
                    [assistantMessage resp]) (c + 2) inv hh3
                rw [heq] at hml
                exact hml
              · rename_i m c2 inv2 heq
                have hml := execToolCalls_head_preserved env
                  (summarizeMessages env st a).1.tools resp.tool_calls m0 hrole
                  ((summarizeMessages env st a).1.messages ++
                    [assistantMessage resp]) (c + 2) inv hh3
                rw [heq] at hml
                exact ih _ _ _ _ _ _ hml
        | none =>
          dsimp only
          cases hemp : resp.tool_calls.isEmpty with
          | true => exact hh3
          | false =>
            simp only [Bool.false_eq_true, if_false]
            cases hc2 : env.cancel (c + 1) with
            | true => exact cleanup_head_preserved _ _ hh3 hrole
            | false =>
              simp only [Bool.false_eq_true, if_false]
              split
              · rename_i m c2 inv2 heq
                have hml := execToolCalls_head_preserved env
                  (summarizeMessages env st a).1.tools resp.tool_calls m0 hrole
                  ((summarizeMessages env st a).1.messages ++
                    [assistantMessage resp]) (c + 2) inv hh3
                rw [heq] at hml
                exact hml
              · rename_i m c2 inv2 heq
                have hml := execToolCalls_head_preserved env
                  (summarizeMessages env st a).1.tools resp.tool_calls m0 hrole
                  ((summarizeMessages env st a).1.messages ++
                    [assistantMessage resp]) (c + 2) inv hh3
                rw [heq] at hml
                exact ih _ _ _ _ _ _ hml

/-- C9: every history operation — appending a user message, the appends and
cleanups of the step loop, the summarization rebuild, and cancellation
cleanup — keeps the original system message as the first message of the
history. -/
theorem system_message_preserved (m0 : Message)
    (hrole : m0.role = Role.system) :
    (∀ msgs content, msgs.head? = some m0 →
      (addUserMessage msgs content).head? = some m0)
    ∧ (∀ msgs, msgs.head? = some m0 →
      (cleanupIncompleteMessages msgs).head? = some m0)
    ∧ (∀ env st auxIdx, st.messages.head? = some m0 →
      (summarizeMessages env st auxIdx).1.messages.head? = some m0)
    ∧ (∀ env st, st.messages.head? = some m0 →
      (run env st).final.messages.head? = some m0) := by
  refine ⟨?_, ?_, ?_, ?_⟩
  · intro msgs content hhead
    exact head?_append_cons msgs m0 _ hhead
  · intro msgs hhead
    exact cleanup_head_preserved msgs m0 hhead hrole
  · intro env st auxIdx hhead
    exact summarize_head_preserved env st auxIdx m0 hhead
  · intro env st hhead
    exact runLoop_head_preserved env m0 hrole st.max_steps st 0 0 0 0 [] hhead

/-- Witness for C9 at a concrete run. -/
theorem system_message_preserved_witness :
    (run envSteps stSteps).final.messages.head? = some (mkSystem "sys") :=
  (system_message_preserved (mkSystem "sys") rfl).2.2.2 envSteps stSteps rfl

/-- C8: with no cancellation, no gateway failure, and every response carrying
a tool call, `run()` makes exactly `max_steps` step-loop model calls and
returns the max-steps outcome message — it never begins another step. -/
theorem max_steps_exact (env : Env) (st : AgentState)
    (hcancel : ∀ i, env.cancel i = false)
    (hllm : ∀ i, ∃ resp, env.llm i = Except.ok resp ∧ resp.tool_calls ≠ []) :
    (run env st).outcome = Outcome.maxSteps
    ∧ (run env st).llmCalls = st.max_steps
    ∧ outcomeMessage (run env st).outcome st.max_steps =
        "Task couldn't be completed after " ++ toString st.max_steps ++
          " steps." := by
  have h := runLoop_max_steps env hcancel hllm st.max_steps st 0 0 0 0 []
  refine ⟨h.1, ?_, ?_⟩
  · show (runLoop env st 0 0 0 0 [] st.max_steps).llmCalls = st.max_steps
    rw [h.2]
    omega
  · have h1 : (run env st).outcome = Outcome.maxSteps := h.1
    rw [h1]
    rfl

/-- Witness for C8: three steps at ceiling three, then the max-steps
outcome. -/
theorem max_steps_exact_witness :
    (run envSteps stSteps).outcome = Outcome.maxSteps
    ∧ (run envSteps stSteps).llmCalls = 3 :=
  ⟨(max_steps_exact envSteps stSteps (fun _ => rfl)
      (fun _ => ⟨respTool, rfl, by decide⟩)).1,
    (max_steps_exact envSteps stSteps (fun _ => rfl)
      (fun _ => ⟨respTool, rfl, by decide⟩)).2.1⟩

/-- C7: dispatching an unregistered tool name yields the synthetic
unknown-tool failure without invoking any capability, and the tool registry
of the agent state is unmodified by the whole run loop. -/
theorem unknown_tool_synthetic_failure :
    (∀ tools tc, lookupTool tools tc.function.name = none →
      dispatchToolCall tools tc =
        ({ success := false, content := "",
           error := some ("Unknown tool: " ++ tc.function.name) }, false))
    ∧ ∀ env st checkIdx llmIdx auxIdx llmCalls invoked fuel,
        ((runLoop env st checkIdx llmIdx auxIdx llmCalls invoked
          fuel).final).tools = st.tools := by
  constructor
  · intro tools tc h
    unfold dispatchToolCall
    rw [h]
  · intro env st c l a lc inv fuel
    exact runLoop_tools env fuel st c l a lc inv

/-- Witness for C7 on the empty registry. -/
theorem unknown_tool_witness :
    dispatchToolCall [] tcGhost =
      ({ success := false, content := "",
         error := some ("Unknown tool: ghost") }, false) :=
  unknown_tool_synthetic_failure.1 [] tcGhost rfl

/-- C6: an exception raised by a capability during dispatch is converted into
a failed ToolResult carrying the formatted error, the appended tool message
carries `Error: `-prefixed content, and — tool behaviour notwithstanding —
a run with no cancellation and a total gateway never ends in the cancelled
or gateway-error outcome. -/
theorem tool_exception_recovered :
    (∀ tools tc cap exc,
      lookupTool tools tc.function.name = some cap →
      cap.execute tc.function.arguments = Except.error exc →
      dispatchToolCall tools tc =
        ({ success := false, content := "",
           error := some ("Tool execution failed: " ++ exc.detail ++
             "\n\nTraceback:\n" ++ exc.trace) }, true))
    ∧ (∀ tc r, r.success = false →
      toolMessage tc r =
        { role := Role.tool, content := "Error: " ++ r.error.getD "",
          thinking := none, tool_calls := [],
          tool_call_id := some tc.id, name := some tc.function.name })
    ∧ (∀ env st checkIdx llmIdx auxIdx llmCalls invoked fuel,
        (∀ i, env.cancel i = false) →
        (∀ i, ∃ resp, env.llm i = Except.ok resp) →
        (runLoop env st checkIdx llmIdx auxIdx llmCalls invoked fuel).outcome
            ≠ Outcome.cancelled
        ∧ ∀ e, (runLoop env st checkIdx llmIdx auxIdx llmCalls invoked
            fuel).outcome ≠ Outcome.llmError e) := by
  refine ⟨?_, ?_, ?_⟩
  · intro tools tc cap exc hl he
    unfold dispatchToolCall
    rw [hl]
    dsimp only
    rw [he]
  · intro tc r hs
    unfold toolMessage
    rw [hs]
    simp only [Bool.false_eq_true, if_false]
  · intro env st c l a lc inv fuel hcancel hllm
    exact runLoop_no_abnormal env hcancel hllm fuel st c l a lc inv

/-- Witness for C6: the raising capability produces the failed result, and a
concrete no-cancel run does not end cancelled. -/
theorem tool_exception_recovered_witness :
    dispatchToolCall toolsBoom tcBoom =
      ({ success := false, content := "",
         error := some
           ("Tool execution failed: ValueError: boom\n\nTraceback:\ntb") },
        true)
    ∧ (run envSteps stSteps).outcome ≠ Outcome.cancelled := by
  constructor
  · exact tool_exception_recovered.1 toolsBoom tcBoom capBoom
      ⟨"ValueError: boom", "tb"⟩ rfl rfl
  · exact (tool_exception_recovered.2.2 envSteps stSteps 0 0 0 0 [] 3
      (fun _ => rfl) (fun _ => ⟨respTool, rfl⟩)).1

/-- C1 (code bug): with the cancellation flag set at the start of the first
step, `run` returns the cancellation outcome without making any model call,
yet the history is not left unchanged: the cleanup performed at the
start-of-step checkpoint truncates at the most recent assistant message,
deleting a completed assistant message and the freshly added user request. -/
theorem cancel_at_step_start_truncates_completed_round :
    (run envCancelled stTwoRounds).outcome = Outcome.cancelled
    ∧ (run envCancelled stTwoRounds).llmCalls = 0
    ∧ stTwoRounds.messages =
        [mkSystem "sys", mkUser "task 1", mkAssistant "done", mkUser "task 2"]
    ∧ (run envCancelled stTwoRounds).final.messages =
        [mkSystem "sys", mkUser "task 1"] := by
  refine ⟨?_, ?_, ?_, ?_⟩ <;> decide

end MiniAgent
